import Mathlib

/-!
Shallow embedding of the futures-spot deviation scanner
(`src/exchanges.py` and `src/bot.py`).

Python floats are modelled as rationals, Python dicts as association
lists (unique keys, insertion order preserved), and absolute timestamps
as rationals measured in hours.  Python set iteration order is
implementation-defined, so functions that iterate a set take the
enumeration order as an explicit list parameter.
-/

namespace Divergence

/-- Embedding of Python's `str.upper()` (the symbols at hand are ASCII),
working on the character list underlying the string. -/
def strUpper (s : String) : String := ⟨s.data.map Char.toUpper⟩

/-- Embedding of Python's `str.startswith(pre)` on character lists. -/
def strStartsWith (s pre : String) : Bool := pre.data.isPrefixOf s.data

/-- Embedding of Python's slicing `s[n:]` on character lists. -/
def strDrop (s : String) (n : Nat) : String := ⟨s.data.drop n⟩

/-- Embedding of `ExchangeManager._normalize_coin_name` (exchanges.py
lines 18-24): uppercase, then drop 4 characters when the string starts
with "1000", then drop 5 characters when the result starts with
"10000". -/
def normalize_coin_name (coin : String) : String :=
  let c1 := strUpper coin
  let c2 := if strStartsWith c1 "1000" then strDrop c1 4 else c1
  if strStartsWith c2 "10000" then strDrop c2 5 else c2

/-- Helper for Python's substring test `pat in s` on lists of
characters: some tail of the list has `pat` as a leading block. -/
def listContainsSeq (pat : List Char) : List Char → Bool
  | [] => pat.isEmpty
  | c :: rest => pat.isPrefixOf (c :: rest) || listContainsSeq pat rest

/-- Embedding of Python's substring containment `pat in s`. -/
def containsSub (s pat : String) : Bool :=
  listContainsSeq pat.toList s.toList

/-- A Python dict from coin to price, as an association list. -/
abbrev PriceMap := List (String × ℚ)

/-- A Python dict from coin to (funding rate percent, time string). -/
abbrev FundingMap := List (String × (ℚ × String))

/-- A Python dict from coin to mute-expiry timestamp (hours). -/
abbrev MuteTable := List (String × ℚ)

/-- Embedding of Python dict assignment `d[k] = v`: overwrite the
existing entry in place, else append at the end (dicts preserve
insertion order). -/
def dictSet {β : Type} : List (String × β) → String → β → List (String × β)
  | [], k, v => [(k, v)]
  | (k', v') :: rest, k, v =>
    if k' = k then (k, v) :: rest else (k', v') :: dictSet rest k v

/-- Embedding of Python dict deletion `del d[k]`. -/
def dictDelete {β : Type} (tbl : List (String × β)) (k : String) : List (String × β) :=
  tbl.filter (fun p => p.1 != k)

/-- One entry of the deviation engine's output: coin, spot price,
futures price, deviation percent, funding rate percent, funding time
string (the 6-tuple built at exchanges.py line 291). -/
structure Deviation where
  coin : String
  spot : ℚ
  futures : ℚ
  dev : ℚ
  frRate : ℚ
  frTime : String
deriving DecidableEq, Repr

/-- One row of `ExchangeManager.calculate_deviations` (exchanges.py
lines 284-293): for a coin in both snapshots with positive prices,
compute the deviation percent, keep it when its absolute value is at
most 20, and attach the funding data with the `(0.0, "8h")` default. -/
def deviation_row (spotP futP : PriceMap) (funding : FundingMap)
    (coin : String) : Option Deviation :=
  match spotP.lookup coin, futP.lookup coin with
  | some s, some f =>
    if 0 < s ∧ 0 < f then
      if |((f - s) / s) * 100| ≤ 20 then
        some ⟨coin, s, f, ((f - s) / s) * 100,
          ((funding.lookup coin).getD (0, "8h")).1,
          ((funding.lookup coin).getD (0, "8h")).2⟩
      else none
    else none
  | _, _ => none

/-- Comparison used by `deviations.sort(key=lambda x: abs(x[3]), reverse=True)`
(exchanges.py line 295): entry `a` may precede entry `b` when its
absolute deviation is at least as large. -/
def devGE (a b : Deviation) : Prop := |b.dev| ≤ |a.dev|

instance : DecidableRel devGE := fun _ _ => inferInstanceAs (Decidable (_ ≤ _))

instance : IsTotal Deviation devGE := ⟨fun _ _ => (le_total _ _).symm⟩

instance : IsTrans Deviation devGE := ⟨fun _ _ _ h h' => le_trans h' h⟩

/-- Row accumulation of `ExchangeManager.calculate_deviations`
(exchanges.py lines 281-293).  `order` is the iteration order of the
Python set `common_coins = set(spot_prices) & set(futures_prices)`,
which is implementation-defined; results are stated for every order. -/
def deviation_rows (order : List String) (spotP futP : PriceMap)
    (funding : FundingMap) : List Deviation :=
  order.filterMap (deviation_row spotP futP funding)

/-- Embedding of `ExchangeManager.calculate_deviations` (exchanges.py
lines 278-296): the accumulated rows sorted by
`deviations.sort(key=lambda x: abs(x[3]), reverse=True)`.  Python's
`list.sort` is a stable sort by descending absolute deviation, rendered
here as a stable insertion sort with the same comparison. -/
def calculate_deviations (order : List String) (spotP futP : PriceMap)
    (funding : FundingMap) : List Deviation :=
  List.insertionSort devGE (deviation_rows order spotP futP funding)

/-- Embedding of `is_muted` (bot.py lines 326-335): with no entry the
answer is false; with an entry whose expiry is at or before `now` the
entry is deleted and the answer is false; otherwise true.  The returned
table is the registry after the lazy deletion. -/
def is_muted (now : ℚ) (tbl : MuteTable) (coin : String) : Bool × MuteTable :=
  match tbl.lookup coin with
  | none => (false, tbl)
  | some u => if u ≤ now then (false, dictDelete tbl coin) else (true, tbl)

/-- Embedding of `clean_expired_mutes` (bot.py lines 316-324): delete
every entry whose expiry lies strictly before `now`. -/
def clean_expired_mutes (now : ℚ) (tbl : MuteTable) : MuteTable :=
  tbl.filter (fun p => !(decide (p.2 < now)))

/-- Embedding of the listing in `show_muted_handler` (bot.py lines
211-245): prune expired entries, then list each remaining coin with its
remaining duration. -/
def list_muted (now : ℚ) (tbl : MuteTable) : List (String × ℚ) × MuteTable :=
  let t := clean_expired_mutes now tbl
  (t.map (fun p => (p.1, p.2 - now)), t)

/-- Replies of the `/mute` command handler. -/
inductive MuteReply where
  | usage
  | invalidHours
  | muted (coin : String) (hours : ℚ)
deriving DecidableEq, Repr

/-- Embedding of `mute_command` (bot.py lines 287-314).  `parseFloat`
abstracts Python's `float(...)` on the second argument, returning
`none` exactly when the parse raises `ValueError`; durations are
rationals, so float parsing is otherwise uninterpreted.  With fewer or
more than two arguments the handler replies with usage help; with an
unparsable or non-positive duration it rejects; otherwise it stores
expiry `now + hours`. -/
def mute_command (parseFloat : String → Option ℚ) (now : ℚ) (tbl : MuteTable)
    (args : List String) : MuteReply × MuteTable :=
  if args.length = 2 then
    let coin := strUpper (args.getD 0 "")
    match parseFloat (args.getD 1 "") with
    | none => (.invalidHours, tbl)
    | some hours =>
      if hours ≤ 0 then (.invalidHours, tbl)
      else (.muted coin hours, dictSet tbl coin (now + hours))
  else (.usage, tbl)

/-- Pure reading of the mute state: a coin is muted when its entry
exists and expires strictly after `now`.  This is the boolean that
`is_muted` returns, separated from its lazy-deletion side effect. -/
def isMutedPure (now : ℚ) (tbl : MuteTable) (coin : String) : Bool :=
  match tbl.lookup coin with
  | none => false
  | some u => decide (now < u)

/-- Embedding of the inner alert loop of `check_and_alert` (bot.py
lines 365-368) for one exchange: walk the engine's entries in order,
and for each one whose absolute deviation reaches the threshold consult
`is_muted` (threading its lazy deletions), emitting the entry tagged
with the exchange name when it is not muted.  Python's `and`
short-circuits, so `is_muted` runs only for entries at or above the
threshold. -/
def evaluate_exchange (threshold now : ℚ) (ex : String) :
    List Deviation → MuteTable → List (String × Deviation) × MuteTable
  | [], tbl => ([], tbl)
  | d :: ds, tbl =>
    if threshold ≤ |d.dev| then
      let r1 := is_muted now tbl d.coin
      if r1.1 then evaluate_exchange threshold now ex ds r1.2
      else
        let r := evaluate_exchange threshold now ex ds r1.2
        ((ex, d) :: r.1, r.2)
    else evaluate_exchange threshold now ex ds tbl

/-- Embedding of the alert-collection loop of `check_and_alert` (bot.py
lines 364-368): iterate the per-exchange deviation lists, concatenating
the alerts each exchange produces while threading the mute table. -/
def check_and_alert (threshold now : ℚ) :
    List (String × List Deviation) → MuteTable → List (String × Deviation) × MuteTable
  | [], tbl => ([], tbl)
  | (ex, ds) :: rest, tbl =>
    let r1 := evaluate_exchange threshold now ex ds tbl
    let r2 := check_and_alert threshold now rest r1.2
    (r1.1 ++ r2.1, r2.2)

/-- The per-entry inclusion condition of the alert check, read off the
initial mute table: the absolute deviation reaches the threshold and
the coin is not muted. -/
def alert_included (threshold now : ℚ) (tbl : MuteTable) (d : Deviation) : Bool :=
  decide (threshold ≤ |d.dev|) && !(isMutedPure now tbl d.coin)

/-- Lexicographic comparison of character lists, used to express
"coin name ascending". -/
def charListLE : List Char → List Char → Bool
  | [], _ => true
  | _ :: _, [] => false
  | a :: as, b :: bs => if a < b then true else if b < a then false else charListLE as bs

/-- Ordering demanded by the specification for the engine output
(written from the spec, for comparison with the code): strictly larger
absolute deviation first, ties by ascending canonical coin name. -/
def spec_tie_order (a b : Deviation) : Prop :=
  |b.dev| < |a.dev| ∨ (|a.dev| = |b.dev| ∧ charListLE a.coin.data b.coin.data = true)

instance : DecidableRel spec_tie_order := fun _ _ =>
  inferInstanceAs (Decidable (_ ∨ _))

/-- The fields of a ccxt market dict that the price loops read.
Optional fields model `market.get(...)`: `none` is an absent key.
`active` is read as `market.get('active', True)` on Binance and as
`market.get('active') is not False` on Bybit and Gate; with dict values
restricted to booleans both pass exactly when the field is not
`some false`.  `linear` is read as `market.get('linear', False)`, so an
absent key is `false`. -/
structure Market where
  quote : Option String
  settle : Option String
  base : String
  active : Option Bool
  linear : Bool
  mtype : Option String
  spotFlag : Option Bool
deriving DecidableEq, Repr

/-- The one field of a ccxt ticker dict that the price loops read;
`ticker.get('last')` is truthy exactly for `some p` with `p ≠ 0`. -/
structure Ticker where
  last : Option ℚ
deriving DecidableEq, Repr

/-- One iteration of the spot loop of `get_binance_prices`
(exchanges.py lines 50-59): USDT-quoted active market, truthy last
price and nonempty base; the base is normalized, and stored only when
the price is positive and the normalized base contains neither "UP" nor
"DOWN". -/
def binance_spot_insert (markets : List (String × Market)) (acc : PriceMap)
    (sym : String) (tk : Ticker) : PriceMap :=
  match markets.lookup sym with
  | none => acc
  | some m =>
    if m.quote = some "USDT" ∧ m.active ≠ some false then
      match tk.last with
      | some p =>
        if p ≠ 0 ∧ m.base ≠ "" then
          if 0 < p ∧ containsSub (normalize_coin_name m.base) "UP" = false ∧
              containsSub (normalize_coin_name m.base) "DOWN" = false then
            dictSet acc (normalize_coin_name m.base) p
          else acc
        else acc
      | none => acc
    else acc

/-- The spot dict built by `get_binance_prices` (exchanges.py lines
49-59). -/
def get_binance_spot (markets : List (String × Market))
    (tickers : List (String × Ticker)) : PriceMap :=
  tickers.foldl (fun acc r => binance_spot_insert markets acc r.1 r.2) []

/-- One iteration of the futures loop of `get_binance_prices`
(exchanges.py lines 62-71): USDT-settled active linear market, truthy
last price and nonempty base; the base is normalized, and stored
whenever the price is positive — there is no "UP"/"DOWN" check on this
side. -/
def binance_futures_insert (markets : List (String × Market)) (acc : PriceMap)
    (sym : String) (tk : Ticker) : PriceMap :=
  match markets.lookup sym with
  | none => acc
  | some m =>
    if m.settle = some "USDT" ∧ m.active ≠ some false ∧ m.linear = true then
      match tk.last with
      | some p =>
        if p ≠ 0 ∧ m.base ≠ "" then
          if 0 < p then dictSet acc (normalize_coin_name m.base) p else acc
        else acc
      | none => acc
    else acc

/-- The futures dict built by `get_binance_prices` (exchanges.py lines
61-71). -/
def get_binance_futures (markets : List (String × Market))
    (tickers : List (String × Ticker)) : PriceMap :=
  tickers.foldl (fun acc r => binance_futures_insert markets acc r.1 r.2) []

/-- One iteration of the spot loop of `get_bybit_prices` (exchanges.py
lines 129-143): USDT-quoted market that is not inactive and is of spot
type or flagged spot; the same final guard as Binance spot, including
the "UP"/"DOWN" exclusion. -/
def bybit_spot_insert (markets : List (String × Market)) (acc : PriceMap)
    (sym : String) (tk : Ticker) : PriceMap :=
  match markets.lookup sym with
  | none => acc
  | some m =>
    if m.quote = some "USDT" ∧ m.active ≠ some false ∧
        (m.mtype = some "spot" ∨ m.spotFlag = some true) then
      match tk.last with
      | some p =>
        if p ≠ 0 ∧ m.base ≠ "" then
          if 0 < p ∧ containsSub (normalize_coin_name m.base) "UP" = false ∧
              containsSub (normalize_coin_name m.base) "DOWN" = false then
            dictSet acc (normalize_coin_name m.base) p
          else acc
        else acc
      | none => acc
    else acc

/-- The spot dict built by `get_bybit_prices` (exchanges.py lines
128-143). -/
def get_bybit_spot (markets : List (String × Market))
    (tickers : List (String × Ticker)) : PriceMap :=
  tickers.foldl (fun acc r => bybit_spot_insert markets acc r.1 r.2) []

/-- One iteration of the futures loop of `get_bybit_prices`
(exchanges.py lines 146-159): USDT-settled swap market that is not
inactive; stored whenever the price is positive, with no "UP"/"DOWN"
check. -/
def bybit_futures_insert (markets : List (String × Market)) (acc : PriceMap)
    (sym : String) (tk : Ticker) : PriceMap :=
  match markets.lookup sym with
  | none => acc
  | some m =>
    if m.settle = some "USDT" ∧ m.active ≠ some false ∧ m.mtype = some "swap" then
      match tk.last with
      | some p =>
        if p ≠ 0 ∧ m.base ≠ "" then
          if 0 < p then dictSet acc (normalize_coin_name m.base) p else acc
        else acc
      | none => acc
    else acc

/-- The futures dict built by `get_bybit_prices` (exchanges.py lines
145-159). -/
def get_bybit_futures (markets : List (String × Market))
    (tickers : List (String × Ticker)) : PriceMap :=
  tickers.foldl (fun acc r => bybit_futures_insert markets acc r.1 r.2) []

/-- One iteration of the spot loop of `get_gate_prices` (exchanges.py
lines 211-225), textually identical to the Bybit spot loop. -/
def gate_spot_insert (markets : List (String × Market)) (acc : PriceMap)
    (sym : String) (tk : Ticker) : PriceMap :=
  match markets.lookup sym with
  | none => acc
  | some m =>
    if m.quote = some "USDT" ∧ m.active ≠ some false ∧
        (m.mtype = some "spot" ∨ m.spotFlag = some true) then
      match tk.last with
      | some p =>
        if p ≠ 0 ∧ m.base ≠ "" then
          if 0 < p ∧ containsSub (normalize_coin_name m.base) "UP" = false ∧
              containsSub (normalize_coin_name m.base) "DOWN" = false then
            dictSet acc (normalize_coin_name m.base) p
          else acc
        else acc
      | none => acc
    else acc

/-- The spot dict built by `get_gate_prices` (exchanges.py lines
210-225). -/
def get_gate_spot (markets : List (String × Market))
    (tickers : List (String × Ticker)) : PriceMap :=
  tickers.foldl (fun acc r => gate_spot_insert markets acc r.1 r.2) []

/-- One iteration of the futures loop of `get_gate_prices`
(exchanges.py lines 228-241), textually identical to the Bybit futures
loop. -/
def gate_futures_insert (markets : List (String × Market)) (acc : PriceMap)
    (sym : String) (tk : Ticker) : PriceMap :=
  match markets.lookup sym with
  | none => acc
  | some m =>
    if m.settle = some "USDT" ∧ m.active ≠ some false ∧ m.mtype = some "swap" then
      match tk.last with
      | some p =>
        if p ≠ 0 ∧ m.base ≠ "" then
          if 0 < p then dictSet acc (normalize_coin_name m.base) p else acc
        else acc
      | none => acc
    else acc

/-- The futures dict built by `get_gate_prices` (exchanges.py lines
227-241). -/
def get_gate_futures (markets : List (String × Market))
    (tickers : List (String × Ticker)) : PriceMap :=
  tickers.foldl (fun acc r => gate_futures_insert markets acc r.1 r.2) []

/-! ## Dictionary lemmas -/

theorem lookup_cons_ne {β : Type} (k' : String) (v' : β) (es : List (String × β))
    {c : String} (h : c ≠ k') : ((k', v') :: es).lookup c = es.lookup c := by
  rw [List.lookup_cons, beq_eq_false_iff_ne.mpr h]

theorem lookup_dictSet_self {β : Type} (tbl : List (String × β)) (k : String) (v : β) :
    (dictSet tbl k v).lookup k = some v := by
  induction tbl with
  | nil => simp [dictSet]
  | cons p rest ih =>
    obtain ⟨k', v'⟩ := p
    by_cases h : k' = k
    · simp [dictSet, h]
    · rw [show dictSet ((k', v') :: rest) k v = (k', v') :: dictSet rest k v from by
        simp [dictSet, h]]
      rw [lookup_cons_ne _ _ _ (fun hk => h hk.symm)]
      exact ih

theorem lookup_dictDelete_self {β : Type} (tbl : List (String × β)) (k : String) :
    (dictDelete tbl k).lookup k = none := by
  induction tbl with
  | nil => simp [dictDelete]
  | cons p rest ih =>
    obtain ⟨k', v'⟩ := p
    by_cases h : k' = k
    · simpa [dictDelete, h] using ih
    · rw [show dictDelete ((k', v') :: rest) k = (k', v') :: dictDelete rest k from by
        simp [dictDelete, h]]
      rw [lookup_cons_ne _ _ _ (fun hk => h hk.symm)]
      exact ih

theorem lookup_dictDelete_ne {β : Type} (tbl : List (String × β)) {k c : String}
    (h : c ≠ k) : (dictDelete tbl k).lookup c = tbl.lookup c := by
  induction tbl with
  | nil => simp [dictDelete]
  | cons p rest ih =>
    obtain ⟨k', v'⟩ := p
    by_cases hp : k' = k
    · subst hp
      rw [show dictDelete ((k', v') :: rest) k' = dictDelete rest k' from by
        simp [dictDelete]]
      rw [lookup_cons_ne _ _ _ h]
      exact ih
    · rw [show dictDelete ((k', v') :: rest) k = (k', v') :: dictDelete rest k from by
        simp [dictDelete, hp]]
      by_cases hc : c = k'
      · subst hc
        simp [List.lookup_cons_self]
      · rw [lookup_cons_ne _ _ _ hc, lookup_cons_ne _ _ _ hc]
        exact ih

theorem lookup_clean_expired_mutes {now : ℚ} {tbl : MuteTable} {c : String} {v : ℚ}
    (h : tbl.lookup c = some v) (hv : ¬ v < now) :
    (clean_expired_mutes now tbl).lookup c = some v := by
  induction tbl with
  | nil => simp at h
  | cons p rest ih =>
    obtain ⟨k', v'⟩ := p
    by_cases hc : c = k'
    · subst hc
      rw [List.lookup_cons_self] at h
      cases h
      simp [clean_expired_mutes, hv, List.lookup_cons_self]
    · rw [lookup_cons_ne _ _ _ hc] at h
      by_cases hv' : v' < now
      · simpa [clean_expired_mutes, hv'] using ih h
      · rw [show clean_expired_mutes now ((k', v') :: rest)
            = (k', v') :: clean_expired_mutes now rest from by
          simp [clean_expired_mutes, hv']]
        rw [lookup_cons_ne _ _ _ hc]
        exact ih h

/-! ## Mute registry lemmas -/

theorem is_muted_fst (now : ℚ) (tbl : MuteTable) (coin : String) :
    (is_muted now tbl coin).1 = isMutedPure now tbl coin := by
  unfold is_muted isMutedPure
  cases h : tbl.lookup coin with
  | none => rfl
  | some u =>
    by_cases hu : u ≤ now
    · simp [hu, not_lt.mpr hu]
    · simp [hu, not_le.mp hu]

theorem isMutedPure_is_muted_snd (now : ℚ) (tbl : MuteTable) (coin c : String) :
    isMutedPure now (is_muted now tbl coin).2 c = isMutedPure now tbl c := by
  unfold is_muted
  cases h : tbl.lookup coin with
  | none => rfl
  | some u =>
    by_cases hu : u ≤ now
    · simp only [hu, if_true]
      by_cases hc : c = coin
      · subst hc
        unfold isMutedPure
        rw [lookup_dictDelete_self, h]
        simp [not_lt.mpr hu]
      · unfold isMutedPure
        rw [lookup_dictDelete_ne _ hc]
    · simp [hu]

/-! ## C8: lazy expiry semantics of the mute registry -/

/-- Claim C8: with no entry `is_muted` answers false; with an entry
expiring at or before now it deletes the entry and answers false; with
a live entry it answers true.  Concretely, muting BTC for one hour at
time 0 makes `is_muted` true at time 0, and at time 2 (past the hour)
`is_muted` is false, the entry is deleted, and BTC is gone from the
mute listing. -/
theorem claim8_is_muted_lazy_expiry :
    (∀ (now : ℚ) (tbl : MuteTable) (coin : String),
      (tbl.lookup coin = none → is_muted now tbl coin = (false, tbl)) ∧
      (∀ u : ℚ, tbl.lookup coin = some u → u ≤ now →
        is_muted now tbl coin = (false, dictDelete tbl coin) ∧
        (is_muted now tbl coin).2.lookup coin = none) ∧
      (∀ u : ℚ, tbl.lookup coin = some u → now < u →
        is_muted now tbl coin = (true, tbl))) ∧
    mute_command (fun s => if s = "1" then some 1 else none) 0 [] ["BTC", "1"]
      = (.muted "BTC" 1, [("BTC", 1)]) ∧
    (is_muted 0 [("BTC", 1)] "BTC").1 = true ∧
    is_muted 2 [("BTC", 1)] "BTC" = (false, []) ∧
    (list_muted 2 [("BTC", 1)]).1 = [] := by
  refine ⟨fun now tbl coin => ⟨?_, fun u hu hle => ?_, fun u hu hlt => ?_⟩, ?_, ?_, ?_, ?_⟩
  · intro h
    unfold is_muted
    rw [h]
  · constructor
    · unfold is_muted
      rw [hu]
      simp [hle]
    · unfold is_muted
      rw [hu]
      simp [hle, lookup_dictDelete_self]
  · unfold is_muted
    rw [hu]
    simp [not_le.mpr hlt]
  · refine Prod.ext ?_ ?_ <;> norm_num [mute_command, dictSet] <;> decide
  · decide
  · refine Prod.ext ?_ ?_ <;> decide
  · decide

/-- Witness for C8: the general clauses applied to the one-entry table
at the boundary cases. -/
theorem claim8_witness :
    is_muted 0 [("BTC", (1 : ℚ))] "BTC" = (true, [("BTC", 1)]) ∧
    is_muted 2 [("BTC", (1 : ℚ))] "BTC" = (false, dictDelete [("BTC", 1)] "BTC") := by
  constructor
  · exact (claim8_is_muted_lazy_expiry.1 0 [("BTC", 1)] "BTC").2.2 1 rfl (by norm_num)
  · exact ((claim8_is_muted_lazy_expiry.1 2 [("BTC", 1)] "BTC").2.1 1 rfl (by norm_num)).1

/-! ## C9: mute command validation -/

/-- Claim C9: a mute request with a wrong argument count, an unparsable
duration, or a non-positive duration is rejected with a descriptive
reply and leaves the table unchanged; a positive duration sets or
overwrites the coin's expiry to now + duration. -/
theorem claim9_mute_command_validation (parse : String → Option ℚ) (now : ℚ)
    (tbl : MuteTable) (args : List String) :
    (args.length ≠ 2 → mute_command parse now tbl args = (.usage, tbl)) ∧
    (args.length = 2 → parse (args.getD 1 "") = none →
      mute_command parse now tbl args = (.invalidHours, tbl)) ∧
    (∀ h : ℚ, args.length = 2 → parse (args.getD 1 "") = some h → h ≤ 0 →
      mute_command parse now tbl args = (.invalidHours, tbl)) ∧
    (∀ h : ℚ, args.length = 2 → parse (args.getD 1 "") = some h → 0 < h →
      mute_command parse now tbl args =
        (.muted (strUpper (args.getD 0 "")) h,
          dictSet tbl (strUpper (args.getD 0 "")) (now + h)) ∧
      (dictSet tbl (strUpper (args.getD 0 "")) (now + h)).lookup
        (strUpper (args.getD 0 "")) = some (now + h)) := by
  refine ⟨fun hlen => ?_, fun hlen hp => ?_, fun h hlen hp hle => ?_,
    fun h hlen hp hpos => ⟨?_, lookup_dictSet_self ..⟩⟩
  · simp only [mute_command, if_neg hlen]
  · unfold mute_command
    rw [if_pos hlen, hp]
  · unfold mute_command
    rw [if_pos hlen, hp]
    simp only [if_pos hle]
  · unfold mute_command
    rw [if_pos hlen, hp]
    simp only [if_neg (not_le.mpr hpos)]

/-- Witness for C9: muting btc for two hours from time 0 through a
parse oracle that reads "2" as 2. -/
theorem claim9_witness :
    mute_command (fun s => if s = "2" then some 2 else none) 0 [] ["btc", "2"]
      = (.muted (strUpper "btc") 2, dictSet ([] : MuteTable) (strUpper "btc") (0 + 2)) ∧
    (dictSet ([] : MuteTable) (strUpper "btc") (0 + 2)).lookup (strUpper "btc")
      = some (0 + 2) :=
  (claim9_mute_command_validation (fun s => if s = "2" then some 2 else none)
    0 [] ["btc", "2"]).2.2.2 2 rfl (by norm_num) (by norm_num)

theorem lookup_map_sub (now : ℚ) {l : MuteTable} {coin : String} {v : ℚ}
    (h : l.lookup coin = some v) :
    (l.map (fun p => (p.1, p.2 - now))).lookup coin = some (v - now) := by
  induction l with
  | nil => simp at h
  | cons p rest ih =>
    obtain ⟨k', v'⟩ := p
    by_cases hk : coin = k'
    · subst hk
      rw [List.lookup_cons_self] at h
      cases h
      simp [List.lookup_cons_self]
    · rw [lookup_cons_ne _ _ _ hk] at h
      simpa [lookup_cons_ne _ _ _ hk] using ih h

/-! ## C10: boundary disagreement between lazy expiry and bulk pruning -/

/-- Claim C10: for an entry expiring exactly now, `is_muted` treats it
as expired — it deletes the entry and reports not muted — while the
bulk pruning pass `clean_expired_mutes` retains it, so the coin still
appears in the listed table while being reported unmuted. -/
theorem claim10_boundary_disagreement (now : ℚ) (tbl : MuteTable) (coin : String)
    (h : tbl.lookup coin = some now) :
    (is_muted now tbl coin).1 = false ∧
    (is_muted now tbl coin).2.lookup coin = none ∧
    (clean_expired_mutes now tbl).lookup coin = some now ∧
    (list_muted now tbl).1.lookup coin = some 0 := by
  refine ⟨?_, ?_, ?_, ?_⟩
  · unfold is_muted
    rw [h]
    simp
  · unfold is_muted
    rw [h]
    simp [lookup_dictDelete_self]
  · exact lookup_clean_expired_mutes h (lt_irrefl now)
  · unfold list_muted
    have hc := lookup_clean_expired_mutes h (lt_irrefl now)
    have hm := lookup_map_sub now hc
    rw [sub_self] at hm
    exact hm

/-- Witness for C10: a table whose only entry expires exactly at the
current instant. -/
theorem claim10_witness :
    (is_muted 5 [("BTC", (5 : ℚ))] "BTC").1 = false ∧
    (is_muted 5 [("BTC", (5 : ℚ))] "BTC").2.lookup "BTC" = none ∧
    (clean_expired_mutes 5 [("BTC", (5 : ℚ))]).lookup "BTC" = some 5 ∧
    (list_muted 5 [("BTC", (5 : ℚ))]).1.lookup "BTC" = some 0 :=
  claim10_boundary_disagreement 5 [("BTC", 5)] "BTC" rfl

/-! ## C2: the alert evaluator is an order-preserving filter -/

theorem evaluate_exchange_snd (threshold now : ℚ) (ex : String)
    (ds : List Deviation) (tbl : MuteTable) (c : String) :
    isMutedPure now (evaluate_exchange threshold now ex ds tbl).2 c
      = isMutedPure now tbl c := by
  induction ds generalizing tbl with
  | nil => rfl
  | cons d ds ih =>
    rw [evaluate_exchange]
    by_cases h : threshold ≤ |d.dev|
    · rw [if_pos h]
      by_cases hm : (is_muted now tbl d.coin).1
      · rw [if_pos hm, ih, isMutedPure_is_muted_snd]
      · rw [if_neg hm]
        simp only []
        rw [ih, isMutedPure_is_muted_snd]
    · rw [if_neg h, ih]

theorem evaluate_exchange_fst (threshold now : ℚ) (ex : String)
    (ds : List Deviation) (tbl : MuteTable) :
    (evaluate_exchange threshold now ex ds tbl).1 =
      (ds.filter (alert_included threshold now tbl)).map (fun d => (ex, d)) := by
  induction ds generalizing tbl with
  | nil => rfl
  | cons d ds ih =>
    rw [evaluate_exchange, List.filter_cons]
    by_cases h : threshold ≤ |d.dev|
    · rw [if_pos h]
      have hfix : ∀ e ∈ ds, alert_included threshold now (is_muted now tbl d.coin).2 e
          = alert_included threshold now tbl e := by
        intro e _
        unfold alert_included
        rw [isMutedPure_is_muted_snd]
      by_cases hm : isMutedPure now tbl d.coin
      · rw [if_pos ((is_muted_fst now tbl d.coin).trans hm)]
        rw [ih, List.filter_congr hfix]
        have : alert_included threshold now tbl d = false := by
          unfold alert_included
          rw [hm]
          simp
        rw [this]
        simp
      · rw [if_neg (fun hb => hm ((is_muted_fst now tbl d.coin).symm.trans hb))]
        simp only []
        rw [ih, List.filter_congr hfix]
        have : alert_included threshold now tbl d = true := by
          unfold alert_included
          rw [eq_false_of_ne_true hm]
          simp [h]
        rw [this]
        simp
    · rw [if_neg h, ih]
      have : alert_included threshold now tbl d = false := by
        unfold alert_included
        simp [h]
      rw [this]
      simp

theorem check_and_alert_snd (threshold now : ℚ)
    (blocks : List (String × List Deviation)) (tbl : MuteTable) (c : String) :
    isMutedPure now (check_and_alert threshold now blocks tbl).2 c
      = isMutedPure now tbl c := by
  induction blocks generalizing tbl with
  | nil => rfl
  | cons b rest ih =>
    obtain ⟨ex, ds⟩ := b
    rw [check_and_alert]
    simp only []
    rw [ih, evaluate_exchange_snd]

/-- Claim C2: the alert loop of `check_and_alert` keeps, from each
exchange's (already sorted) deviation list, exactly the entries whose
absolute deviation reaches the threshold and whose coin is not muted,
in their original order — it equals an order-preserving filter by
`alert_included`, the inclusion condition read off the initial mute
table. -/
theorem claim2_alert_evaluator_filter (threshold now : ℚ)
    (blocks : List (String × List Deviation)) (tbl : MuteTable) :
    (check_and_alert threshold now blocks tbl).1 =
      blocks.flatMap (fun b =>
        (b.2.filter (alert_included threshold now tbl)).map (fun d => (b.1, d))) := by
  induction blocks generalizing tbl with
  | nil => rfl
  | cons b rest ih =>
    obtain ⟨ex, ds⟩ := b
    rw [check_and_alert, List.flatMap_cons]
    rw [evaluate_exchange_fst, ih]
    have hpt : alert_included threshold now
        (evaluate_exchange threshold now ex ds tbl).2
        = alert_included threshold now tbl := by
      funext e
      unfold alert_included
      rw [evaluate_exchange_snd]
    rw [hpt]

/-! ## C1: normalizer prefix stripping -/

/-- Claim C1, settled against the code: "1000PEPE" and "btc" normalize
as claimed, but `_normalize_coin_name` tests the "1000" prefix before
the "10000" prefix, so "10000PEPE" loses only four characters and
becomes "0PEPE", not "PEPE". -/
theorem claim1_normalizer_prefix_order :
    normalize_coin_name "1000PEPE" = "PEPE" ∧
    normalize_coin_name "btc" = "BTC" ∧
    normalize_coin_name "10000PEPE" = "0PEPE" ∧
    normalize_coin_name "10000PEPE" ≠ "PEPE" := by
  refine ⟨?_, ?_, ?_, ?_⟩ <;> decide

/-! ## Deviation engine lemmas -/

theorem deviation_row_spec {sp fu : PriceMap} {fr : FundingMap} {coin : String}
    {d : Deviation} (h : deviation_row sp fu fr coin = some d) :
    d.coin = coin ∧ sp.lookup coin = some d.spot ∧ fu.lookup coin = some d.futures ∧
    0 < d.spot ∧ 0 < d.futures ∧
    d.dev = ((d.futures - d.spot) / d.spot) * 100 ∧ |d.dev| ≤ 20 ∧
    (d.frRate, d.frTime) = (fr.lookup coin).getD (0, "8h") := by
  unfold deviation_row at h
  split at h
  · split at h
    · split at h
      · rename_i s f hs hf hpos habs
        cases h
        exact ⟨rfl, hs, hf, hpos.1, hpos.2, rfl, habs, rfl⟩
      · cases h
    · cases h
  · cases h

theorem mem_calculate_deviations {order : List String} {sp fu : PriceMap}
    {fr : FundingMap} {d : Deviation} :
    d ∈ calculate_deviations order sp fu fr ↔ d ∈ deviation_rows order sp fu fr := by
  unfold calculate_deviations
  exact List.mem_insertionSort devGE

/-! ## C4: output ordering -/

/-- Counterexample to claim C4: with both coins tied at five percent
and the set of common coins enumerated as B then A, the output keeps B
before A — the sort is stable on the enumeration order and applies no
coin-name tie-break, so the output is not sorted by the specified
deviation-then-name order. -/
theorem claim4_counterexample :
    (calculate_deviations ["B", "A"] [("A", 1), ("B", 1)]
      [("A", 21/20), ("B", 21/20)] []).map (fun d => d.coin) = ["B", "A"] ∧
    (calculate_deviations ["B", "A"] [("A", 1), ("B", 1)]
      [("A", 21/20), ("B", 21/20)] []).map (fun d => d.dev) = [5, 5] ∧
    ¬ (calculate_deviations ["B", "A"] [("A", 1), ("B", 1)]
      [("A", 21/20), ("B", 21/20)] []).Pairwise spec_tie_order := by
  have lA1 : List.lookup "A" [("A", (1 : ℚ)), ("B", (1 : ℚ))] = some 1 := rfl
  have lB1 : List.lookup "B" [("A", (1 : ℚ)), ("B", (1 : ℚ))] = some 1 := rfl
  have lA2 : List.lookup "A" [("A", (21/20 : ℚ)), ("B", (21/20 : ℚ))] = some (21/20) := rfl
  have lB2 : List.lookup "B" [("A", (21/20 : ℚ)), ("B", (21/20 : ℚ))] = some (21/20) := rfl
  have hev : calculate_deviations ["B", "A"] [("A", 1), ("B", 1)]
      [("A", 21/20), ("B", 21/20)] []
      = [⟨"B", 1, 21/20, 5, 0, "8h"⟩, ⟨"A", 1, 21/20, 5, 0, "8h"⟩] := by
    norm_num [calculate_deviations, deviation_rows, deviation_row, List.filterMap_cons,
      lA1, lB1, lA2, lB2, devGE]
  rw [hev]
  refine ⟨rfl, by norm_num, ?_⟩
  intro hpw
  have := (List.pairwise_cons.mp hpw).1 _ (List.mem_cons_self _ _)
  rcases this with hlt | ⟨_, hle⟩
  · exact absurd hlt (by norm_num)
  · exact absurd hle (by decide)

/-- Claim C4 as amended: the output is sorted by absolute deviation
descending; it is a permutation of the accumulated rows; the sort is
stable, so rows already in descending-or-tied order keep their relative
(set-enumeration) order rather than being reordered by coin name; and
the distinct-valued example 2, 9, 5 percent for A, B, C comes out as
B, C, A. -/
theorem claim4_sorted_descending_stable :
    (∀ (order : List String) (sp fu : PriceMap) (fr : FundingMap),
      (calculate_deviations order sp fu fr).Pairwise devGE) ∧
    (∀ (order : List String) (sp fu : PriceMap) (fr : FundingMap),
      List.Perm (calculate_deviations order sp fu fr) (deviation_rows order sp fu fr)) ∧
    (∀ (order : List String) (sp fu : PriceMap) (fr : FundingMap) (a b : Deviation),
      devGE a b → List.Sublist [a, b] (deviation_rows order sp fu fr) →
      List.Sublist [a, b] (calculate_deviations order sp fu fr)) ∧
    (calculate_deviations ["A", "B", "C"] [("A", 100), ("B", 100), ("C", 100)]
      [("A", 102), ("B", 109), ("C", 105)] []).map (fun d => d.coin)
      = ["B", "C", "A"] := by
  refine ⟨?_, ?_, ?_, ?_⟩
  · intro order sp fu fr
    exact List.sorted_insertionSort devGE (deviation_rows order sp fu fr)
  · intro order sp fu fr
    exact List.perm_insertionSort devGE (deviation_rows order sp fu fr)
  · intro order sp fu fr a b hab hsub
    exact List.pair_sublist_insertionSort hab hsub
  · have lA1 : List.lookup "A" [("A", (100 : ℚ)), ("B", (100 : ℚ)), ("C", (100 : ℚ))]
        = some 100 := rfl
    have lB1 : List.lookup "B" [("A", (100 : ℚ)), ("B", (100 : ℚ)), ("C", (100 : ℚ))]
        = some 100 := rfl
    have lC1 : List.lookup "C" [("A", (100 : ℚ)), ("B", (100 : ℚ)), ("C", (100 : ℚ))]
        = some 100 := rfl
    have lA2 : List.lookup "A" [("A", (102 : ℚ)), ("B", (109 : ℚ)), ("C", (105 : ℚ))]
        = some 102 := rfl
    have lB2 : List.lookup "B" [("A", (102 : ℚ)), ("B", (109 : ℚ)), ("C", (105 : ℚ))]
        = some 109 := rfl
    have lC2 : List.lookup "C" [("A", (102 : ℚ)), ("B", (109 : ℚ)), ("C", (105 : ℚ))]
        = some 105 := rfl
    norm_num [calculate_deviations, deviation_rows, deviation_row, List.filterMap_cons,
      lA1, lB1, lC1, lA2, lB2, lC2, devGE]

/-- Witness for C4 as amended: the stability clause applied to the tied
two-row example, keeping enumeration order B then A. -/
theorem claim4_witness :
    List.Sublist [(⟨"B", 1, 21/20, 5, 0, "8h"⟩ : Deviation), ⟨"A", 1, 21/20, 5, 0, "8h"⟩]
      (calculate_deviations ["B", "A"] [("A", 1), ("B", 1)]
        [("A", 21/20), ("B", 21/20)] []) := by
  have lA1 : List.lookup "A" [("A", (1 : ℚ)), ("B", (1 : ℚ))] = some 1 := rfl
  have lB1 : List.lookup "B" [("A", (1 : ℚ)), ("B", (1 : ℚ))] = some 1 := rfl
  have lA2 : List.lookup "A" [("A", (21/20 : ℚ)), ("B", (21/20 : ℚ))] = some (21/20) := rfl
  have lB2 : List.lookup "B" [("A", (21/20 : ℚ)), ("B", (21/20 : ℚ))] = some (21/20) := rfl
  have hrows : deviation_rows ["B", "A"] [("A", 1), ("B", 1)]
      [("A", 21/20), ("B", 21/20)] []
      = [⟨"B", 1, 21/20, 5, 0, "8h"⟩, ⟨"A", 1, 21/20, 5, 0, "8h"⟩] := by
    norm_num [deviation_rows, deviation_row, List.filterMap_cons, lA1, lB1, lA2, lB2]
  exact claim4_sorted_descending_stable.2.2.1 ["B", "A"] [("A", 1), ("B", 1)]
    [("A", 21/20), ("B", 21/20)] [] _ _ (by norm_num [devGE])
    (by rw [hrows])

/-! ## C5: deviation formula -/

/-- Claim C5: every output entry carries its coin's snapshot prices and
the deviation percent (futures − spot) / spot × 100; concretely, spot
100 and futures 105 for BTC yield exactly one entry with deviation 5. -/
theorem claim5_deviation_formula :
    (∀ (order : List String) (sp fu : PriceMap) (fr : FundingMap) (d : Deviation),
      d ∈ calculate_deviations order sp fu fr →
      sp.lookup d.coin = some d.spot ∧ fu.lookup d.coin = some d.futures ∧
      d.dev = ((d.futures - d.spot) / d.spot) * 100) ∧
    calculate_deviations ["BTC"] [("BTC", 100)] [("BTC", 105)] []
      = [⟨"BTC", 100, 105, 5, 0, "8h"⟩] := by
  constructor
  · intro order sp fu fr d hd
    rw [mem_calculate_deviations] at hd
    obtain ⟨coin, _, hrow⟩ := List.mem_filterMap.mp hd
    obtain ⟨hc, hs, hf, _, _, hdev, _, _⟩ := deviation_row_spec hrow
    subst hc
    exact ⟨hs, hf, hdev⟩
  · norm_num [calculate_deviations, deviation_rows, deviation_row, List.lookup, List.filterMap_cons]

/-- Witness for C5: the formula clause applied to the singleton BTC
example. -/
theorem claim5_witness :
    [("BTC", (100 : ℚ))].lookup "BTC" = some 100 ∧
    [("BTC", (105 : ℚ))].lookup "BTC" = some 105 ∧
    (5 : ℚ) = ((105 - 100) / 100) * 100 := by
  have h := claim5_deviation_formula.1 ["BTC"] [("BTC", 100)] [("BTC", 105)] []
    ⟨"BTC", 100, 105, 5, 0, "8h"⟩
    (by rw [claim5_deviation_formula.2]; exact List.mem_singleton_self _)
  exact h

/-! ## C6: the twenty percent outlier filter -/

/-- Claim C6: every output entry has absolute deviation at most 20; a
common coin with positive prices whose absolute deviation is at most 20
(including exactly 20) is kept; and spot 100 with futures 130 produces
an empty output. -/
theorem claim6_outlier_filter :
    (∀ (order : List String) (sp fu : PriceMap) (fr : FundingMap) (d : Deviation),
      d ∈ calculate_deviations order sp fu fr → |d.dev| ≤ 20) ∧
    (∀ (order : List String) (sp fu : PriceMap) (fr : FundingMap)
      (coin : String) (s f : ℚ),
      coin ∈ order → sp.lookup coin = some s → fu.lookup coin = some f →
      0 < s → 0 < f → |((f - s) / s) * 100| ≤ 20 →
      (⟨coin, s, f, ((f - s) / s) * 100, ((fr.lookup coin).getD (0, "8h")).1,
        ((fr.lookup coin).getD (0, "8h")).2⟩ : Deviation)
        ∈ calculate_deviations order sp fu fr) ∧
    calculate_deviations ["BTC"] [("BTC", 100)] [("BTC", 130)] [] = [] := by
  refine ⟨?_, ?_, ?_⟩
  · intro order sp fu fr d hd
    rw [mem_calculate_deviations] at hd
    obtain ⟨coin, _, hrow⟩ := List.mem_filterMap.mp hd
    exact (deviation_row_spec hrow).2.2.2.2.2.2.1
  · intro order sp fu fr coin s f hord hs hf h0s h0f habs
    rw [mem_calculate_deviations]
    refine List.mem_filterMap.mpr ⟨coin, hord, ?_⟩
    unfold deviation_row
    simp only [hs, hf]
    rw [if_pos ⟨h0s, h0f⟩, if_pos habs]
  · norm_num [calculate_deviations, deviation_rows, deviation_row, List.lookup, List.filterMap_cons]

/-- Witness for C6: a deviation of exactly 20 percent (spot 100,
futures 120) is kept. -/
theorem claim6_witness :
    (⟨"BTC", 100, 120, ((120 - 100) / 100) * 100,
      (([] : FundingMap).lookup "BTC").getD (0, "8h") |>.1,
      (([] : FundingMap).lookup "BTC").getD (0, "8h") |>.2⟩ : Deviation)
      ∈ calculate_deviations ["BTC"] [("BTC", 100)] [("BTC", 120)] [] :=
  claim6_outlier_filter.2.1 ["BTC"] [("BTC", 100)] [("BTC", 120)] [] "BTC" 100 120
    (List.mem_singleton_self _) rfl rfl (by norm_num) (by norm_num) (by norm_num)

/-! ## C7: intersection-only output -/

/-- Claim C7: every coin in the engine's output is present in both the
spot and the futures snapshot. -/
theorem claim7_intersection_only (order : List String) (sp fu : PriceMap)
    (fr : FundingMap) (d : Deviation) (hd : d ∈ calculate_deviations order sp fu fr) :
    (sp.lookup d.coin).isSome ∧ (fu.lookup d.coin).isSome := by
  rw [mem_calculate_deviations] at hd
  obtain ⟨coin, _, hrow⟩ := List.mem_filterMap.mp hd
  obtain ⟨hc, hs, hf, _⟩ := deviation_row_spec hrow
  subst hc
  exact ⟨by rw [hs]; rfl, by rw [hf]; rfl⟩

/-- Witness for C7: the singleton BTC example. -/
theorem claim7_witness :
    (([("BTC", (100 : ℚ))].lookup "BTC").isSome ∧
      ([("BTC", (105 : ℚ))].lookup "BTC").isSome) :=
  claim7_intersection_only ["BTC"] [("BTC", 100)] [("BTC", 105)] []
    ⟨"BTC", 100, 105, 5, 0, "8h"⟩
    (by norm_num [calculate_deviations, deviation_rows, deviation_row, List.lookup, List.filterMap_cons])

/-! ## C3: the "UP"/"DOWN" exclusion -/

theorem mem_keys_dictSet {β : Type} (acc : List (String × β)) (b k : String) (v : β)
    (h : k ∈ (dictSet acc b v).map Prod.fst) : k = b ∨ k ∈ acc.map Prod.fst := by
  induction acc with
  | nil =>
    simp [dictSet] at h
    exact Or.inl h
  | cons p rest ih =>
    obtain ⟨k', v'⟩ := p
    by_cases hb : k' = b
    · subst hb
      rw [show dictSet ((k', v') :: rest) k' v = (k', v) :: rest from by simp [dictSet]] at h
      simp only [List.map_cons, List.mem_cons] at h ⊢
      tauto
    · rw [show dictSet ((k', v') :: rest) b v = (k', v') :: dictSet rest b v from by
        simp [dictSet, hb]] at h
      simp only [List.map_cons, List.mem_cons] at h ⊢
      rcases h with h | h
      · tauto
      · rcases ih h with h2 | h2 <;> tauto

theorem foldl_keys_invariant {P : String → Prop}
    (step : PriceMap → String × Ticker → PriceMap)
    (hstep : ∀ acc r k, k ∈ (step acc r).map Prod.fst → k ∈ acc.map Prod.fst ∨ P k) :
    ∀ (l : List (String × Ticker)) (acc : PriceMap),
      (∀ k ∈ acc.map Prod.fst, P k) → ∀ k ∈ (l.foldl step acc).map Prod.fst, P k := by
  intro l
  induction l with
  | nil => exact fun acc hacc k hk => hacc k hk
  | cons r rest ih =>
    intro acc hacc k hk
    rw [List.foldl_cons] at hk
    exact ih (step acc r) (fun k' hk' => (hstep acc r k' hk').elim (hacc k') id) k hk

theorem binance_spot_insert_keys (mkts : List (String × Market)) (acc : PriceMap)
    (sym : String) (tk : Ticker) (k : String)
    (h : k ∈ (binance_spot_insert mkts acc sym tk).map Prod.fst) :
    k ∈ acc.map Prod.fst ∨
      (containsSub k "UP" = false ∧ containsSub k "DOWN" = false) := by
  unfold binance_spot_insert at h
  split at h
  · exact Or.inl h
  · split at h
    · split at h
      · split at h
        · split at h
          · rename_i hguard
            rcases mem_keys_dictSet acc _ k _ h with hk | hk
            · refine Or.inr ?_
              rw [hk]
              exact ⟨hguard.2.1, hguard.2.2⟩
            · exact Or.inl hk
          · exact Or.inl h
        · exact Or.inl h
      · exact Or.inl h
    · exact Or.inl h

theorem bybit_spot_insert_keys (mkts : List (String × Market)) (acc : PriceMap)
    (sym : String) (tk : Ticker) (k : String)
    (h : k ∈ (bybit_spot_insert mkts acc sym tk).map Prod.fst) :
    k ∈ acc.map Prod.fst ∨
      (containsSub k "UP" = false ∧ containsSub k "DOWN" = false) := by
  unfold bybit_spot_insert at h
  split at h
  · exact Or.inl h
  · split at h
    · split at h
      · split at h
        · split at h
          · rename_i hguard
            rcases mem_keys_dictSet acc _ k _ h with hk | hk
            · refine Or.inr ?_
              rw [hk]
              exact ⟨hguard.2.1, hguard.2.2⟩
            · exact Or.inl hk
          · exact Or.inl h
        · exact Or.inl h
      · exact Or.inl h
    · exact Or.inl h

theorem gate_spot_insert_keys (mkts : List (String × Market)) (acc : PriceMap)
    (sym : String) (tk : Ticker) (k : String)
    (h : k ∈ (gate_spot_insert mkts acc sym tk).map Prod.fst) :
    k ∈ acc.map Prod.fst ∨
      (containsSub k "UP" = false ∧ containsSub k "DOWN" = false) := by
  unfold gate_spot_insert at h
  split at h
  · exact Or.inl h
  · split at h
    · split at h
      · split at h
        · split at h
          · rename_i hguard
            rcases mem_keys_dictSet acc _ k _ h with hk | hk
            · refine Or.inr ?_
              rw [hk]
              exact ⟨hguard.2.1, hguard.2.2⟩
            · exact Or.inl hk
          · exact Or.inl h
        · exact Or.inl h
      · exact Or.inl h
    · exact Or.inl h

/-- Counterexample to claim C3: normalization never rejects — it maps
"ETHUP" to itself — and the Binance futures loop has no "UP"/"DOWN"
check, so a futures market with base "ETHUP" lands in the futures price
mapping. -/
theorem claim3_counterexample :
    normalize_coin_name "ETHUP" = "ETHUP" ∧
    containsSub (normalize_coin_name "ETHUP") "UP" = true ∧
    (get_binance_futures
        [("ETHUP/USDT:USDT", ⟨none, some "USDT", "ETHUP", none, true, none, none⟩)]
        [("ETHUP/USDT:USDT", ⟨some 5⟩)]).lookup "ETHUP" = some 5 := by
  refine ⟨?_, ?_, ?_⟩ <;> decide

/-- Claim C3 as amended: coins whose normalized form contains "UP" or
"DOWN" are excluded from every exchange's spot price mapping by the
spot-loop filter, but normalization itself never rejects, and the
futures loops apply no such filter — each exchange's futures mapping
can contain such a coin. -/
theorem claim3_updown_spot_only :
    (∀ (mkts : List (String × Market)) (tks : List (String × Ticker)) (k : String),
      k ∈ (get_binance_spot mkts tks).map Prod.fst →
      containsSub k "UP" = false ∧ containsSub k "DOWN" = false) ∧
    (∀ (mkts : List (String × Market)) (tks : List (String × Ticker)) (k : String),
      k ∈ (get_bybit_spot mkts tks).map Prod.fst →
      containsSub k "UP" = false ∧ containsSub k "DOWN" = false) ∧
    (∀ (mkts : List (String × Market)) (tks : List (String × Ticker)) (k : String),
      k ∈ (get_gate_spot mkts tks).map Prod.fst →
      containsSub k "UP" = false ∧ containsSub k "DOWN" = false) ∧
    (get_binance_futures
        [("ETHUP/USDT:USDT", ⟨none, some "USDT", "ETHUP", none, true, none, none⟩)]
        [("ETHUP/USDT:USDT", ⟨some 5⟩)]).lookup "ETHUP" = some 5 ∧
    (get_bybit_futures
        [("ETHUP/USDT:USDT", ⟨none, some "USDT", "ETHUP", none, false, some "swap", none⟩)]
        [("ETHUP/USDT:USDT", ⟨some 5⟩)]).lookup "ETHUP" = some 5 ∧
    (get_gate_futures
        [("ETHUP/USDT:USDT", ⟨none, some "USDT", "ETHUP", none, false, some "swap", none⟩)]
        [("ETHUP/USDT:USDT", ⟨some 5⟩)]).lookup "ETHUP" = some 5 := by
  refine ⟨?_, ?_, ?_, by decide, by decide, by decide⟩
  · intro mkts tks k hk
    exact foldl_keys_invariant _
      (fun acc r k' hk' => binance_spot_insert_keys mkts acc r.1 r.2 k' hk') tks []
      (by simp) k hk
  · intro mkts tks k hk
    exact foldl_keys_invariant _
      (fun acc r k' hk' => bybit_spot_insert_keys mkts acc r.1 r.2 k' hk') tks []
      (by simp) k hk
  · intro mkts tks k hk
    exact foldl_keys_invariant _
      (fun acc r k' hk' => gate_spot_insert_keys mkts acc r.1 r.2 k' hk') tks []
      (by simp) k hk

/-- Witness for C3 as amended: a plain BTC spot market passes the
filter, and its key indeed contains neither "UP" nor "DOWN". -/
theorem claim3_witness :
    containsSub "BTC" "UP" = false ∧ containsSub "BTC" "DOWN" = false :=
  claim3_updown_spot_only.1
    [("BTC/USDT", ⟨some "USDT", none, "BTC", none, false, none, none⟩)]
    [("BTC/USDT", ⟨some 3⟩)] "BTC" (by decide)

end Divergence
